import Mathlib

/-!
# Verification of the `job_sched` catch-up scheduler

Shallow embedding of `src/lib.rs`.  Instants (`chrono::DateTime<Utc>`) are
modelled as integers counting milliseconds; `chrono::Duration` is a signed
integer of milliseconds.  A cron `Schedule` is modelled by the ascending list
of its occurrence instants; `Schedule::after(&t)` yields the occurrences
strictly after `t` in order, and `Schedule::upcoming(Utc).take(1)` the first
occurrence strictly after now.  The callback is an opaque token (`run`); a
tick returns, together with the updated job, the ordered list of occurrence
instants for which the callback was invoked.  `Utc::now()` is passed in as an
explicit parameter `now`, the single clock read at tick entry.
-/

namespace JobSched

/-- `Schedule::after(&t)`: the ascending occurrence sequence strictly after `t`. -/
def afterList (s : List Int) (t : Int) : List Int :=
  s.filter (fun e => decide (t < e))

/-- One `Job<F>`: schedule, callback (opaque token), `last_tick`, `limit_missed_runs`. -/
structure Job where
  schedule : List Int
  run : Nat
  last_tick : Option Int
  limit_missed_runs : Nat
deriving DecidableEq, Repr

/-- `Job::new`: fresh job, `last_tick = None`, `limit_missed_runs = 1`. -/
def Job.new (schedule : List Int) (run : Nat) : Job :=
  { schedule := schedule, run := run, last_tick := none, limit_missed_runs := 1 }

/-- `Job::tick` (src/lib.rs lines 61-88).  Returns the updated job and the trace
of occurrence instants for which `(self.run)()` was invoked, in invocation
order.  The `for … { if event > now { break } … }` loop is `takeWhile (· ≤ now)`. -/
def Job.tick (j : Job) (now : Int) : Job × List Int :=
  match j.last_tick with
  | none => ({ j with last_tick := some now }, [])
  | some lt =>
    let fired :=
      if j.limit_missed_runs > 0 then
        ((afterList j.schedule lt).take j.limit_missed_runs).takeWhile
          (fun e => decide (e ≤ now))
      else
        (afterList j.schedule lt).takeWhile (fun e => decide (e ≤ now))
    ({ j with last_tick := some now }, fired)

/-- `Job::async_tick` (src/lib.rs lines 27-54): the identical algorithm; the only
difference in the source is that each callback invocation is awaited. -/
def Job.asyncTick (j : Job) (now : Int) : Job × List Int :=
  match j.last_tick with
  | none => ({ j with last_tick := some now }, [])
  | some lt =>
    let fired :=
      if j.limit_missed_runs > 0 then
        ((afterList j.schedule lt).take j.limit_missed_runs).takeWhile
          (fun e => decide (e ≤ now))
      else
        (afterList j.schedule lt).takeWhile (fun e => decide (e ≤ now))
    ({ j with last_tick := some now }, fired)

theorem asyncTick_eq_tick (j : Job) (now : Int) : j.asyncTick now = j.tick now := rfl

/-- Number of occurrences of `s` in the half-open interval `(lt, now]`:
those strictly after `lt` and at or before `now`. -/
def missedCount (s : List Int) (lt now : Int) : Nat :=
  ((afterList s lt).filter (fun e => decide (e ≤ now))).length

/-- `JobScheduler<F>`: the insertion-ordered job collection. -/
structure JobScheduler where
  jobs : List Job
deriving DecidableEq, Repr

/-- `JobScheduler::new`. -/
def JobScheduler.new : JobScheduler := ⟨[]⟩

/-- `JobScheduler::add`: `self.jobs.push(job)`. -/
def JobScheduler.add (s : JobScheduler) (j : Job) : JobScheduler :=
  ⟨s.jobs ++ [j]⟩

/-- The inner loop body of `time_till_next_job` for one job:
`for event in job.schedule.upcoming(Utc).take(1) { let d = event - now;
if duration.is_zero() || d < duration { duration = d } }`. -/
def durStep (now : Int) (dur : Int) (job : Job) : Int :=
  ((afterList job.schedule now).take 1).foldl
    (fun d event => if d = 0 ∨ event - now < d then event - now else d) dur

/-- `JobScheduler::time_till_next_job` (src/lib.rs lines 104-119).
`duration.to_std().unwrap()` panics when the `chrono` duration is negative;
the panic is modelled as `none`. -/
def JobScheduler.time_till_next_job (s : JobScheduler) (now : Int) : Option Int :=
  if s.jobs.isEmpty then some 500
  else
    let duration := s.jobs.foldl (durStep now) 0
    if duration < 0 then none else some duration

/-- `JobScheduler::tick` loop body over the job list: runs `Job::tick` on each
job in order, threading the updated jobs and collecting each job's trace. -/
def tickAll (now : Int) : List Job → List Job × List (List Int)
  | [] => ([], [])
  | j :: rest =>
    let r := Job.tick j now
    let rs := tickAll now rest
    (r.1 :: rs.1, r.2 :: rs.2)

/-- `JobScheduler::tick` (src/lib.rs lines 144-148). -/
def JobScheduler.tick (s : JobScheduler) (now : Int) : JobScheduler × List (List Int) :=
  (⟨(tickAll now s.jobs).1⟩, (tickAll now s.jobs).2)

/-- `JobScheduler::async_tick` loop body (src/lib.rs lines 133-137):
identical traversal, calling `Job::async_tick`. -/
def asyncTickAll (now : Int) : List Job → List Job × List (List Int)
  | [] => ([], [])
  | j :: rest =>
    let r := Job.asyncTick j now
    let rs := asyncTickAll now rest
    (r.1 :: rs.1, r.2 :: rs.2)

/-- `JobScheduler::async_tick`. -/
def JobScheduler.asyncTick (s : JobScheduler) (now : Int) : JobScheduler × List (List Int) :=
  (⟨(asyncTickAll now s.jobs).1⟩, (asyncTickAll now s.jobs).2)

/-- The job's next occurrence strictly after `now`, minus `now` (the gap the
scheduler's wake-up query computes for this job), when one exists. -/
def nextGap (job : Job) (now : Int) : Option Int :=
  ((afterList job.schedule now).head?).map (fun e => e - now)

/-- The limit-0 catch-up loop of `Job::tick` over a lazy, possibly infinite
occurrence stream `occ` (the source iterates `schedule.after(..)` with no
`take`), run with explicit fuel.  `some n` means the loop exited (first
occurrence past `now` reached) after invoking the callback `n` times;
`none` means the fuel ran out before the loop exited. -/
def walkUnbounded (occ : Nat → Int) (now : Int) : Nat → Nat → Option Nat
  | 0, _ => none
  | fuel + 1, i =>
    if now < occ i then some 0
    else (walkUnbounded occ now fuel (i + 1)).map (· + 1)

/-! ## Concrete fixtures used by witness theorems -/

/-- A job with occurrences 1, 2, 3, 4, `last_tick = some 0`, limit 2. -/
def exJobLimit2 : Job :=
  { schedule := [1, 2, 3, 4], run := 0, last_tick := some 0, limit_missed_runs := 2 }

/-- A job with occurrences 1, 3, 6, `last_tick = some 0`, limit 5. -/
def exJobLimit5 : Job :=
  { schedule := [1, 3, 6], run := 0, last_tick := some 0, limit_missed_runs := 5 }

/-- A job with occurrences 2, 4, `last_tick = some 0`, limit 1. -/
def exJobSet : Job :=
  { schedule := [2, 4], run := 0, last_tick := some 0, limit_missed_runs := 1 }

/-- A job with occurrences 1, 2, 3, 4, `last_tick = some 0`, limit 0 (unbounded). -/
def exJobLimit0 : Job :=
  { schedule := [1, 2, 3, 4], run := 0, last_tick := some 0, limit_missed_runs := 0 }

/-- A two-job scheduler: next occurrences at 10 and at 2. -/
def exSched : JobScheduler :=
  ⟨[{ schedule := [10], run := 0, last_tick := none, limit_missed_runs := 1 },
    { schedule := [2], run := 1, last_tick := none, limit_missed_runs := 1 }]⟩

/-! ## Helper lemmas -/

theorem takeWhile_take (p : α → Bool) (l : List α) (n : Nat) :
    (l.take n).takeWhile p = (l.takeWhile p).take n := by
  induction l generalizing n with
  | nil => simp
  | cons a t ih =>
    cases n with
    | zero => simp
    | succ m =>
      by_cases hp : p a
      · simp [List.take_succ_cons, List.takeWhile_cons, hp, ih]
      · simp [List.take_succ_cons, List.takeWhile_cons, hp]

theorem sorted_takeWhile_eq_filter (now : Int) (l : List Int)
    (h : List.Sorted (· < ·) l) :
    l.takeWhile (fun e => decide (e ≤ now)) = l.filter (fun e => decide (e ≤ now)) := by
  induction l with
  | nil => rfl
  | cons a t ih =>
    rw [List.sorted_cons] at h
    by_cases ha : a ≤ now
    · simp [List.takeWhile_cons, List.filter_cons, ha, ih h.2]
    · have ht : t.filter (fun e => decide (e ≤ now)) = [] := by
        rw [List.filter_eq_nil_iff]
        intro b hb
        simp only [decide_eq_true_eq]
        intro hble
        exact ha (le_trans (le_of_lt (h.1 b hb)) hble)
      simp [List.takeWhile_cons, List.filter_cons, ha, ht]

theorem mem_afterList {s : List Int} {t e : Int} (h : e ∈ afterList s t) : t < e := by
  have := (List.mem_filter.mp h).2
  exact of_decide_eq_true this

theorem mem_takeWhile_le {now : Int} {l : List Int} {e : Int}
    (h : e ∈ l.takeWhile (fun x => decide (x ≤ now))) : e ≤ now := by
  induction l with
  | nil => simp at h
  | cons a t ih =>
    by_cases ha : a ≤ now
    · rw [List.takeWhile_cons, if_pos (by simpa using ha)] at h
      rcases List.mem_cons.mp h with rfl | h2
      · exact ha
      · exact ih h2
    · rw [List.takeWhile_cons, if_neg (by simpa using ha)] at h
      simp at h

theorem tick_fired_sublist (j : Job) (now lt : Int) (hlt : j.last_tick = some lt) :
    List.Sublist (j.tick now).2 j.schedule := by
  by_cases hL : 0 < j.limit_missed_runs
  · simp only [Job.tick, hlt, gt_iff_lt, if_pos hL]
    exact ((List.takeWhile_sublist _).trans (List.take_sublist _ _)).trans
      (List.filter_sublist _)
  · simp only [Job.tick, hlt, gt_iff_lt, if_neg hL]
    exact (List.takeWhile_sublist _).trans (List.filter_sublist _)

theorem tickAll_eq (now : Int) (l : List Job) :
    tickAll now l = (l.map (fun j => (j.tick now).1), l.map (fun j => (j.tick now).2)) := by
  induction l with
  | nil => rfl
  | cons j rest ih => simp [tickAll, ih]

theorem asyncTickAll_eq (now : Int) (l : List Job) :
    asyncTickAll now l =
      (l.map (fun j => (j.asyncTick now).1), l.map (fun j => (j.asyncTick now).2)) := by
  induction l with
  | nil => rfl
  | cons j rest ih => simp [asyncTickAll, ih]

/-! ## Claim theorems -/

/-- C4: a freshly constructed job (`last_tick = None`) ticked once sets
`last_tick` to the `now` captured at tick entry and invokes the callback for
no occurrence, even when the schedule has occurrences at or before `now`;
likewise for `async_tick`. -/
theorem first_tick_baseline (j : Job) (now : Int) (h : j.last_tick = none) :
    j.tick now = ({ j with last_tick := some now }, []) ∧
    j.asyncTick now = ({ j with last_tick := some now }, []) := by
  rw [asyncTick_eq_tick]
  simp [Job.tick, h]

/-- Witness for C4: a job whose schedule has occurrences 1, 2, 3, all at or
before `now = 5`, still fires nothing on its first tick. -/
theorem first_tick_baseline_witness :
    (Job.new [1, 2, 3] 0).last_tick = none ∧
    (Job.new [1, 2, 3] 0).tick 5 = ({ Job.new [1, 2, 3] 0 with last_tick := some 5 }, []) :=
  ⟨rfl, (first_tick_baseline (Job.new [1, 2, 3] 0) 5 rfl).1⟩

/-- C3: after a tick of a job whose `last_tick` was already set, `last_tick`
equals the `now` captured at that tick's entry (never an occurrence instant),
regardless of how many invocations occurred; likewise for `async_tick`. -/
theorem tick_sets_last_tick_to_now (j : Job) (now : Int) (h : j.last_tick.isSome) :
    (j.tick now).1.last_tick = some now ∧ (j.asyncTick now).1.last_tick = some now := by
  rw [asyncTick_eq_tick]
  cases hlt : j.last_tick with
  | none => simp [hlt] at h
  | some lt => simp [Job.tick, hlt]

/-- Witness for C3: a job with `last_tick = some 0`, limit 1, ticked at 7. -/
theorem tick_sets_last_tick_to_now_witness :
    (exJobSet.tick 7).1.last_tick = some 7 :=
  (tick_sets_last_tick_to_now exJobSet 7 (by decide)).1

/-- C7: `time_till_next_job` on an empty scheduler returns exactly the fixed
default duration of 500 milliseconds, for every current time. -/
theorem time_till_next_job_empty (now : Int) :
    JobScheduler.new.time_till_next_job now = some 500 := rfl

/-- C2: within a single tick the invoked occurrences are in strictly ascending
occurrence-time order, and no invocation occurs for an occurrence strictly
after the `now` captured at tick entry; `async_tick` produces the identical
trace. -/
theorem tick_fired_ascending_and_le_now (j : Job) (now : Int)
    (hs : List.Sorted (· < ·) j.schedule) :
    List.Sorted (· < ·) (j.tick now).2 ∧ (∀ e ∈ (j.tick now).2, e ≤ now) ∧
    (j.asyncTick now).2 = (j.tick now).2 := by
  refine ⟨?_, ?_, by rw [asyncTick_eq_tick]⟩
  · cases hlt : j.last_tick with
    | none => simp [Job.tick, hlt]
    | some lt => exact hs.sublist (tick_fired_sublist j now lt hlt)
  · intro e he
    cases hlt : j.last_tick with
    | none => simp [Job.tick, hlt] at he
    | some lt =>
      by_cases hL : 0 < j.limit_missed_runs
      · simp only [Job.tick, hlt, gt_iff_lt, if_pos hL] at he
        exact mem_takeWhile_le he
      · simp only [Job.tick, hlt, gt_iff_lt, if_neg hL] at he
        exact mem_takeWhile_le he

/-- Witness for C2: job with schedule 1, 3, 6, `last_tick = some 0`, limit 5,
ticked at `now = 4`: the fired trace is strictly ascending and below 4. -/
theorem tick_fired_ascending_and_le_now_witness :
    List.Sorted (fun a b => a < b) (exJobLimit5.tick 4).2 ∧
    (∀ e ∈ (exJobLimit5.tick 4).2, e ≤ 4) :=
  ⟨(tick_fired_ascending_and_le_now exJobLimit5 4 (by decide)).1,
   (tick_fired_ascending_and_le_now exJobLimit5 4 (by decide)).2.1⟩

/-- C8: the scheduler's bulk `tick` (and `async_tick`) runs the job-level tick
on every job of the collection, in insertion order, each job's whole trace
produced before the next job's tick; the resulting job list and trace list are
exactly the per-job tick results in order (no job skipped or repeated). -/
theorem scheduler_tick_all_jobs (s : JobScheduler) (now : Int) :
    (s.tick now).1.jobs = s.jobs.map (fun j => (j.tick now).1) ∧
    (s.tick now).2 = s.jobs.map (fun j => (j.tick now).2) ∧
    (s.asyncTick now).1.jobs = s.jobs.map (fun j => (j.asyncTick now).1) ∧
    (s.asyncTick now).2 = s.jobs.map (fun j => (j.asyncTick now).2) ∧
    (s.tick now).2.length = s.jobs.length := by
  refine ⟨?_, ?_, ?_, ?_, ?_⟩ <;>
    simp [JobScheduler.tick, JobScheduler.asyncTick, tickAll_eq, asyncTickAll_eq]

/-- C10: `Job::tick` and `Job::async_tick` change no field other than
`last_tick` — the schedule, the callback value and `limit_missed_runs` are
preserved — and the scheduler's bulk tick preserves those fields of every job.
(`time_till_next_job` borrows the scheduler immutably; in the embedding it is
a pure function of the scheduler returning only the duration.) -/
theorem tick_frame :
    (∀ (j : Job) (now : Int),
      (j.tick now).1.schedule = j.schedule ∧ (j.tick now).1.run = j.run ∧
      (j.tick now).1.limit_missed_runs = j.limit_missed_runs ∧
      (j.asyncTick now).1.schedule = j.schedule ∧ (j.asyncTick now).1.run = j.run ∧
      (j.asyncTick now).1.limit_missed_runs = j.limit_missed_runs) ∧
    (∀ (s : JobScheduler) (now : Int),
      (s.tick now).1.jobs.map Job.schedule = s.jobs.map Job.schedule ∧
      (s.tick now).1.jobs.map Job.run = s.jobs.map Job.run ∧
      (s.tick now).1.jobs.map Job.limit_missed_runs = s.jobs.map Job.limit_missed_runs) := by
  have hj : ∀ (j : Job) (now : Int),
      (j.tick now).1.schedule = j.schedule ∧ (j.tick now).1.run = j.run ∧
      (j.tick now).1.limit_missed_runs = j.limit_missed_runs := by
    intro j now
    cases hlt : j.last_tick <;> simp [Job.tick, hlt]
  refine ⟨fun j now => ?_, fun s now => ?_⟩
  · rw [asyncTick_eq_tick]
    exact ⟨(hj j now).1, (hj j now).2.1, (hj j now).2.2, (hj j now).1,
      (hj j now).2.1, (hj j now).2.2⟩
  · refine ⟨?_, ?_, ?_⟩ <;>
      simp only [JobScheduler.tick, tickAll_eq, List.map_map] <;>
      exact List.map_congr_left fun j _ => by
        first
        | exact (hj j now).1
        | exact (hj j now).2.1
        | exact (hj j now).2.2

/-- C1: for a job whose `last_tick` is set, one tick (or `async_tick`) invokes
the callback exactly `min L N` times when the limit `L > 0` and exactly `N`
times when `L = 0`, where `N` is the number of occurrences in the half-open
interval `(last_tick, now]` and `now` is the instant captured at tick entry. -/
theorem tick_invocation_count (j : Job) (now lt : Int)
    (hlt : j.last_tick = some lt) (hs : List.Sorted (· < ·) j.schedule) :
    (j.tick now).2.length =
      (if 0 < j.limit_missed_runs then
        min j.limit_missed_runs (missedCount j.schedule lt now)
       else missedCount j.schedule lt now) ∧
    (j.asyncTick now).2.length =
      (if 0 < j.limit_missed_runs then
        min j.limit_missed_runs (missedCount j.schedule lt now)
       else missedCount j.schedule lt now) := by
  rw [asyncTick_eq_tick]
  have hsorted : List.Sorted (· < ·) (afterList j.schedule lt) :=
    hs.sublist (List.filter_sublist _)
  refine ⟨?_, ?_⟩ <;>
  · by_cases hL : 0 < j.limit_missed_runs
    · simp only [Job.tick, hlt, gt_iff_lt, if_pos hL]
      rw [takeWhile_take, sorted_takeWhile_eq_filter now _ hsorted, List.length_take]
      rfl
    · simp only [Job.tick, hlt, gt_iff_lt, if_neg hL]
      rw [sorted_takeWhile_eq_filter now _ hsorted]
      rfl

/-- Witness for C1: schedule 1, 2, 3, 4, `last_tick = some 0`, limit 2, ticked
at `now = 3`: three occurrences lie in `(0, 3]` and exactly `min 2 3 = 2`
invocations happen. -/
theorem tick_invocation_count_witness :
    (exJobLimit2.tick 3).2.length =
      (if 0 < exJobLimit2.limit_missed_runs then
        min exJobLimit2.limit_missed_runs (missedCount exJobLimit2.schedule 0 3)
       else missedCount exJobLimit2.schedule 0 3) :=
  (tick_invocation_count exJobLimit2 3 0 rfl (by decide)).1

theorem walkUnbounded_terminates (occ : Nat → Int) (now : Int) :
    ∀ (k i : Nat), now < occ (i + k) →
      ∃ n, n ≤ k ∧ walkUnbounded occ now (k + 1) i = some n := by
  intro k
  induction k with
  | zero =>
    intro i h
    simp only [Nat.add_zero] at h
    exact ⟨0, le_refl 0, by simp [walkUnbounded, h]⟩
  | succ m ih =>
    intro i h
    by_cases h0 : now < occ i
    · exact ⟨0, Nat.zero_le _, by simp [walkUnbounded, h0]⟩
    · have h' : now < occ ((i + 1) + m) := by
        have : (i + 1) + m = i + (m + 1) := by omega
        rw [this]; exact h
      obtain ⟨n, hn, hw⟩ := ih (i + 1) h'
      refine ⟨n + 1, by omega, ?_⟩
      show (if now < occ i then some 0
            else (walkUnbounded occ now (m + 1) (i + 1)).map (· + 1)) = some (n + 1)
      rw [if_neg h0, hw]
      rfl

theorem walkUnbounded_const_none :
    ∀ (fuel i : Nat), walkUnbounded (fun _ => (0 : Int)) 0 fuel i = none := by
  intro fuel
  induction fuel with
  | zero => intro i; rfl
  | succ m ih => intro i; simp [walkUnbounded, ih]

/-- C9: the bounded catch-up (limit `L > 0`) invokes the callback at most `L`
times per tick (it examines at most `L` occurrences); the unbounded catch-up
(limit 0), run over a lazy occurrence stream, terminates whenever some
occurrence is strictly past `now` (with invocation count bounded by that
occurrence's index); and without that precondition it has no termination
guard — on the constant stream it exhausts every fuel bound. -/
theorem tick_termination_bounds :
    (∀ (j : Job) (now lt : Int), j.last_tick = some lt →
      (j.tick now).2.length ≤ j.limit_missed_runs ∨ j.limit_missed_runs = 0) ∧
    (∀ (occ : Nat → Int) (now : Int) (k : Nat), now < occ k →
      ∃ n, n ≤ k ∧ walkUnbounded occ now (k + 1) 0 = some n) ∧
    (∀ (fuel i : Nat), walkUnbounded (fun _ => (0 : Int)) 0 fuel i = none) := by
  refine ⟨?_, ?_, walkUnbounded_const_none⟩
  · intro j now lt hlt
    by_cases hL : 0 < j.limit_missed_runs
    · left
      simp only [Job.tick, hlt, gt_iff_lt, if_pos hL]
      calc (((afterList j.schedule lt).take j.limit_missed_runs).takeWhile
              (fun e => decide (e ≤ now))).length
        ≤ ((afterList j.schedule lt).take j.limit_missed_runs).length :=
          (List.takeWhile_sublist _).length_le
      _ ≤ j.limit_missed_runs := List.length_take_le _ _
    · right; omega
  · intro occ now k h
    exact walkUnbounded_terminates occ now k 0 (by simpa using h)

/-- Witness for C9: the limit-2 job fires at most 2 callbacks at `now = 5`, and
on the identity stream with `now = 2` the unbounded walk exits within fuel 4
(first occurrence past 2 is at index 3). -/
theorem tick_termination_bounds_witness :
    ((exJobLimit2.tick 5).2.length ≤ exJobLimit2.limit_missed_runs ∨
      exJobLimit2.limit_missed_runs = 0) ∧
    (∃ n, n ≤ 3 ∧ walkUnbounded (fun i => (i : Int)) 2 4 0 = some n) :=
  ⟨tick_termination_bounds.1 exJobLimit2 5 0 rfl,
   tick_termination_bounds.2.1 (fun i => (i : Int)) 2 3 (by decide)⟩

theorem durStep_nil {job : Job} {now dur : Int}
    (h : afterList job.schedule now = []) : durStep now dur job = dur := by
  simp [durStep, h]

theorem durStep_cons {job : Job} {now dur e : Int} {tl : List Int}
    (h : afterList job.schedule now = e :: tl) :
    durStep now dur job = if dur = 0 ∨ e - now < dur then e - now else dur := by
  simp [durStep, h]

theorem nextGap_none {job : Job} {now : Int}
    (h : afterList job.schedule now = []) : nextGap job now = none := by
  simp [nextGap, h]

theorem nextGap_some {job : Job} {now e : Int} {tl : List Int}
    (h : afterList job.schedule now = e :: tl) : nextGap job now = some (e - now) := by
  simp [nextGap, h]

theorem nextGap_pos {jobs : List Job} {now a : Int}
    (h : a ∈ jobs.filterMap (fun j => nextGap j now)) : 1 ≤ a := by
  obtain ⟨j, _, hga⟩ := List.mem_filterMap.mp h
  cases hafter : afterList j.schedule now with
  | nil => rw [nextGap_none hafter] at hga; exact absurd hga (by simp)
  | cons e tl =>
    rw [nextGap_some hafter] at hga
    have he : now < e := mem_afterList (hafter ▸ List.mem_cons_self e tl)
    have : a = e - now := by injection hga with h'; exact h'.symm
    omega

/-- Invariant of the `time_till_next_job` fold: started from a strictly
positive accumulator, the fold computes the minimum of the accumulator and
the jobs' next-occurrence gaps. -/
theorem foldl_durStep_min (now : Int) :
    ∀ (jobs : List Job) (dur : Int), 1 ≤ dur →
      jobs.foldl (durStep now) dur ∈ dur :: jobs.filterMap (fun j => nextGap j now) ∧
      ∀ g ∈ dur :: jobs.filterMap (fun j => nextGap j now),
        jobs.foldl (durStep now) dur ≤ g := by
  intro jobs
  induction jobs with
  | nil =>
    intro dur _
    refine ⟨by simp, ?_⟩
    intro g hg
    simp only [List.filterMap_nil, List.mem_singleton] at hg
    simp [hg]
  | cons j rest ih =>
    intro dur hdur
    cases hafter : afterList j.schedule now with
    | nil =>
      rw [List.foldl_cons, durStep_nil hafter]
      simp only [List.filterMap_cons, nextGap_none hafter]
      exact ih dur hdur
    | cons e tl =>
      have he : now < e := mem_afterList (hafter ▸ List.mem_cons_self e tl)
      have hge : 1 ≤ e - now := by omega
      rw [List.foldl_cons, durStep_cons hafter]
      simp only [List.filterMap_cons, nextGap_some hafter]
      by_cases hlt : e - now < dur
      · rw [if_pos (Or.inr hlt)]
        obtain ⟨hmem, hbound⟩ := ih (e - now) hge
        constructor
        · exact List.mem_cons_of_mem _ hmem
        · intro g hg
          rcases List.mem_cons.mp hg with hgd | hg2
          · have h1 := hbound (e - now) (List.mem_cons_self _ _)
            omega
          · exact hbound g hg2
      · have hcond : ¬(dur = 0 ∨ e - now < dur) := by
          push_neg
          exact ⟨by omega, by omega⟩
        rw [if_neg hcond]
        obtain ⟨hmem, hbound⟩ := ih dur hdur
        constructor
        · rcases List.mem_cons.mp hmem with h | h
          · exact List.mem_cons.mpr (Or.inl h)
          · exact List.mem_cons_of_mem _ (List.mem_cons_of_mem _ h)
        · intro g hg
          rcases List.mem_cons.mp hg with hgd | hg2
          · have h1 := hbound dur (List.mem_cons_self _ _)
            omega
          · rcases List.mem_cons.mp hg2 with hge2 | hg3
            · have h1 := hbound dur (List.mem_cons_self _ _)
              omega
            · exact hbound g (List.mem_cons_of_mem _ hg3)

/-- C5: on a non-empty scheduler in which every job has a next occurrence
strictly after `now`, `time_till_next_job` returns the minimum, over all jobs,
of that job's next occurrence minus `now` (also when several jobs share the
minimum). -/
theorem time_till_next_job_min (s : JobScheduler) (now : Int)
    (hne : s.jobs ≠ [])
    (hall : ∀ j ∈ s.jobs, afterList j.schedule now ≠ []) :
    ∃ m, s.time_till_next_job now = some m ∧
      m ∈ s.jobs.filterMap (fun j => nextGap j now) ∧
      ∀ g ∈ s.jobs.filterMap (fun j => nextGap j now), m ≤ g := by
  obtain ⟨js⟩ := s
  cases js with
  | nil => exact absurd rfl hne
  | cons j rest =>
    cases hafter : afterList j.schedule now with
    | nil => exact absurd hafter (hall j (List.mem_cons_self j rest))
    | cons e tl =>
      have he : now < e := mem_afterList (hafter ▸ List.mem_cons_self e tl)
      have hge : 1 ≤ e - now := by omega
      have hstep : durStep now 0 j = e - now := by
        rw [durStep_cons hafter, if_pos (Or.inl rfl)]
      obtain ⟨hmem, hbound⟩ := foldl_durStep_min now rest (e - now) hge
      set m := rest.foldl (durStep now) (e - now) with hm
      have hgaps : (j :: rest).filterMap (fun x => nextGap x now)
          = (e - now) :: rest.filterMap (fun x => nextGap x now) := by
        simp only [List.filterMap_cons, nextGap_some hafter]
      have hmpos : 1 ≤ m := by
        have hmem2 : m ∈ (j :: rest).filterMap (fun x => nextGap x now) := hgaps ▸ hmem
        exact nextGap_pos hmem2
      refine ⟨m, ?_, hgaps ▸ hmem, ?_⟩
      · show JobScheduler.time_till_next_job ⟨j :: rest⟩ now = some m
        simp only [JobScheduler.time_till_next_job, List.isEmpty_cons,
          Bool.false_eq_true, if_false, List.foldl_cons, hstep]
        rw [← hm, if_neg (by omega)]
      · intro g hg
        exact hbound g (hgaps ▸ hg)

/-- Witness for C5: two jobs with next occurrences at 10 and at 2, queried at
`now = 0`: the returned wait is a gap of one of the jobs and is the minimum. -/
theorem time_till_next_job_min_witness :
    ∃ m, exSched.time_till_next_job 0 = some m ∧
      m ∈ exSched.jobs.filterMap (fun j => nextGap j 0) ∧
      ∀ g ∈ exSched.jobs.filterMap (fun j => nextGap j 0), m ≤ g :=
  time_till_next_job_min exSched 0 (by decide) (by decide)

theorem durStep_nonneg {now dur : Int} (job : Job) (h : 0 ≤ dur) :
    0 ≤ durStep now dur job := by
  cases hafter : afterList job.schedule now with
  | nil => rw [durStep_nil hafter]; exact h
  | cons e tl =>
    have he : now < e := mem_afterList (hafter ▸ List.mem_cons_self e tl)
    rw [durStep_cons hafter]
    by_cases hc : dur = 0 ∨ e - now < dur
    · rw [if_pos hc]; omega
    · rw [if_neg hc]; exact h

theorem foldl_durStep_nonneg (now : Int) (jobs : List Job) :
    ∀ dur : Int, 0 ≤ dur → 0 ≤ jobs.foldl (durStep now) dur := by
  induction jobs with
  | nil => intro dur h; simpa using h
  | cons j rest ih =>
    intro dur h
    rw [List.foldl_cons]
    exact ih _ (durStep_nonneg j h)

/-- C6: `time_till_next_job` always returns a non-negative duration and never
hits the failing conversion: every next occurrence queried is strictly after
`now`, so the computed minimum is never negative, for every scheduler state
and every `now`. -/
theorem time_till_next_job_nonneg (s : JobScheduler) (now : Int) :
    ∃ d, s.time_till_next_job now = some d ∧ 0 ≤ d := by
  by_cases hemp : s.jobs.isEmpty
  · exact ⟨500, by simp [JobScheduler.time_till_next_job, hemp], by omega⟩
  · have hd : 0 ≤ s.jobs.foldl (durStep now) 0 :=
      foldl_durStep_nonneg now s.jobs 0 (le_refl 0)
    refine ⟨s.jobs.foldl (durStep now) 0, ?_, hd⟩
    have hneg : ¬(s.jobs.foldl (durStep now) 0 < 0) := by omega
    simp only [JobScheduler.time_till_next_job, hemp, if_false]
    rw [if_neg hneg]
    simp

end JobSched
